import Mathlib

/-!
# Verification of the binexplore statistical core

Shallow embedding of the statistics engine (`binstats.py`) and the
direct-mode autocorrelation computation (`binplots.py`) of the
binexplore repository, together with proofs and refutations of the
specified properties.

Byte sequences are modelled as `List Nat`; the numpy `uint8` cast is
modelled by reducing every element modulo 256.  Fallible operations
(numpy broadcast failures, the division by zero reached by a
zero-length xor mask) return `Except Err`.
-/

set_option maxRecDepth 8192

open Finset

/-- Error taxonomy of the spec: `sizeMismatch` models the numpy broadcast
`ValueError` raised when two arrays of incompatible shapes are combined;
`invalidArgument` models the `ZeroDivisionError` reached by
`result.size // mask.size` when the mask is empty. -/
inductive Err where
  | sizeMismatch : Err
  | invalidArgument : Err
deriving DecidableEq, Repr

/-- Models `_cast_uint8_ndarray`: every element is coerced to an unsigned
8-bit value (wrapping, i.e. value mod 256). -/
def cast_uint8 (a : List Nat) : List Nat := a.map (· % 256)

/-- Models `numpy.count_nonzero` on a 1-D array: the number of nonzero
entries. -/
def count_nonzero (a : List Nat) : Nat := (a.filter (· ≠ 0)).length

/-- Models `byte_count(a, frac=False)` from `binstats.py`: the 256-entry
table whose `i`-th entry is `numpy.count_nonzero(a == i)`, computed on
the uint8 cast of the input. -/
def byte_count (a : List Nat) : List Nat :=
  (List.range 256).map (fun i => (cast_uint8 a).count i)

/-- Models `digraph_count(a, frac=False)` from `binstats.py` as the entry
function of the dense 256×256 table: the loop increments
`result[a[i], a[i+1]]` once for each `i` in `0..size-2`, so the entry at
`(x, y)` is the number of adjacent pairs equal to `(x, y)`. -/
def digraph_count (a : List Nat) (x y : Nat) : Nat :=
  ((cast_uint8 a).zip (cast_uint8 a).tail).count (x, y)

/-- Models `trigraph_count(a, frac=False)` from `binstats.py` as the entry
function of the dense 256×256×256 table: the loop increments
`result[a[i], a[i+1], a[i+2]]` once for each `i` in `0..size-3`. -/
def trigraph_count (a : List Nat) (x y z : Nat) : Nat :=
  ((cast_uint8 a).zip ((cast_uint8 a).tail.zip (cast_uint8 a).tail.tail)).count
    (x, (y, z))

/-- `result.sum(axis=None)` for the digraph table: sum of all 256×256
entries. -/
def digraph_total (a : List Nat) : Nat :=
  ∑ x ∈ Finset.range 256, ∑ y ∈ Finset.range 256, digraph_count a x y

/-- `result.sum(axis=None)` for the trigraph table: sum of all 256×256×256
entries. -/
def trigraph_total (a : List Nat) : Nat :=
  ∑ x ∈ Finset.range 256, ∑ y ∈ Finset.range 256, ∑ z ∈ Finset.range 256,
    trigraph_count a x y z

/-- Models `numpy.bitwise_xor` on two 1-D arrays, including numpy's
broadcast rule for 1-D shapes: equal lengths combine elementwise, a
length-1 operand is broadcast across the other, any other combination
raises a broadcast `ValueError` (the spec taxonomy's SizeMismatch). -/
def numpy_bitwise_xor (a b : List Nat) : Except Err (List Nat) :=
  if a.length = b.length then Except.ok (List.zipWith (fun x y => x ^^^ y) a b)
  else if a.length = 1 then Except.ok (b.map (fun y => a.headI ^^^ y))
  else if b.length = 1 then Except.ok (a.map (fun x => x ^^^ b.headI))
  else Except.error Err.sizeMismatch

/-- Models `numpy.unpackbits` on a single uint8 value: its eight bits,
most significant first. -/
def unpackbits8 (x : Nat) : List Nat :=
  [x / 128 % 2, x / 64 % 2, x / 32 % 2, x / 16 % 2,
   x / 8 % 2, x / 4 % 2, x / 2 % 2, x % 2]

/-- Models `diff_bit(a, b)` from `binstats.py`:
`numpy.count_nonzero(numpy.unpackbits(numpy.bitwise_xor(a, b)))` on the
uint8 casts of the inputs. -/
def diff_bit (a b : List Nat) : Except Err Nat :=
  (numpy_bitwise_xor (cast_uint8 a) (cast_uint8 b)).map
    (fun x => count_nonzero (x.flatMap unpackbits8))

/-- Models `diff_byte(a, b)` from `binstats.py`:
`numpy.count_nonzero(numpy.bitwise_xor(a, b))` on the uint8 casts of the
inputs. -/
def diff_byte (a b : List Nat) : Except Err Nat :=
  (numpy_bitwise_xor (cast_uint8 a) (cast_uint8 b)).map count_nonzero

/-- Models the numpy in-place slice update `buf[start:start+len(m)] ^= m`,
one element at a time. -/
def xorSlice : List Nat → Nat → List Nat → List Nat
  | buf, _, [] => buf
  | buf, start, v :: vs =>
      xorSlice (buf.set start (buf.getD start 0 ^^^ v)) (start + 1) vs

/-- The main loop of `repeating_xor`: `applyBlocks m r n` is the buffer
after `n` iterations of `result[i*M:(i+1)*M] ^= mask` (for `i` from 0). -/
def applyBlocks (mask r : List Nat) : Nat → List Nat
  | 0 => r
  | n + 1 => xorSlice (applyBlocks mask r n) (n * mask.length) mask

/-- The two buffers of `repeating_xor`: the (cast) source array and the
result buffer that the in-place updates act on. -/
structure XorState where
  src : List Nat
  result : List Nat
deriving DecidableEq

/-- The sequence of in-place updates `repeating_xor` performs on the
result buffer: `result` starts as the (copied) source data `s`; the full
mask is xored over each of the `result.size // mask.size` complete
blocks; then the first `result.size % mask.size` mask bytes are xored
over the trailing partial block, if there is one. -/
def xor_result (s m : List Nat) : List Nat :=
  let result := s
  let result := applyBlocks m result (result.length / m.length)
  let remain := result.length % m.length
  if remain ≠ 0 then xorSlice result (result.length - remain) (m.take remain)
  else result

/-- Models `repeating_xor(src, mask)` from `binstats.py` with the buffers
explicit.  Both inputs are cast to uint8.  A zero-length mask makes
`result.size // mask.size` fail (the spec taxonomy's InvalidArgument).
Otherwise `result = src.flatten()` creates a fresh buffer holding a copy
of the source data and the xor updates of `xor_result` are applied to it
in place.  The source buffer is never written. -/
def repeating_xor_run (src mask : List Nat) : Except Err XorState :=
  let s := cast_uint8 src
  let m := cast_uint8 mask
  if m.length = 0 then Except.error Err.invalidArgument
  else Except.ok { src := s, result := xor_result s m }

/-- Models the value returned by `repeating_xor`: the result buffer. -/
def repeating_xor (src mask : List Nat) : Except Err (List Nat) :=
  (repeating_xor_run src mask).map XorState.result

/-- Models `numpy.count_nonzero(numpy.bitwise_xor(a[:-i], a[i:]))` from the
direct-mode loop of `autocorrelation` in `binplots.py` (the two slices
have equal length `a.size - i`, so `bitwise_xor` is elementwise). -/
def mismatch_count (a : List Nat) (i : Nat) : Nat :=
  count_nonzero
    (List.zipWith (fun x y => x ^^^ y) (a.take (a.length - i)) (a.drop i))

/-- Models the direct (default) mode of `autocorrelation` from
`binplots.py`: the buffer is pre-filled with
`numpy.arange(a.size, 0, -1)`, i.e. entry `s` holds `a.size - s`, and
then the loop `for i in range(1, a.size-1)` subtracts the number of
byte positions at which the sequence differs from its shift by `i`. -/
def autocorrelation_direct (a0 : List Nat) : List Nat :=
  let a := cast_uint8 a0
  (List.range' 1 (a.length - 2)).foldl
    (fun ac i => ac.set i (ac.getD i 0 - mismatch_count a i))
    ((List.range a.length).map (fun s => a.length - s))

/-- Models `entropy(a)` from `binstats.py`: for each byte value with a
nonzero occurrence count, `h -= p * log2(p)` with `p = count / a.size`;
zero-count values are skipped by the `if count != 0` guard.  Floating
point arithmetic is modelled by the reals. -/
noncomputable def entropy (a : List Nat) : ℝ :=
  ∑ i ∈ Finset.range 256,
    if (cast_uint8 a).count i ≠ 0 then
      -(((cast_uint8 a).count i : ℝ) / ((cast_uint8 a).length : ℝ) *
        Real.logb 2 (((cast_uint8 a).count i : ℝ) / ((cast_uint8 a).length : ℝ)))
    else 0

lemma cast_uint8_length (a : List Nat) : (cast_uint8 a).length = a.length := by
  simp [cast_uint8]

lemma cast_uint8_lt (a : List Nat) : ∀ x ∈ cast_uint8 a, x < 256 := by
  intro x hx
  simp only [cast_uint8, List.mem_map] at hx
  obtain ⟨y, _, rfl⟩ := hx
  exact Nat.mod_lt _ (by norm_num)

lemma cast_uint8_eq_self {a : List Nat} (h : ∀ x ∈ a, x < 256) :
    cast_uint8 a = a := by
  induction a with
  | nil => rfl
  | cons x t ih =>
    have hx : x % 256 = x := Nat.mod_eq_of_lt (h x (by simp))
    have ht := ih (fun y hy => h y (by simp [hy]))
    simp only [cast_uint8, List.map_cons] at ht ⊢
    rw [hx, ht]

/-- Summing the multiplicities of a list over any finite set containing all
of its elements recovers the length of the list. -/
lemma sum_count_of_forall_mem {α : Type} [BEq α] [LawfulBEq α] [DecidableEq α]
    (l : List α) (S : Finset α) (h : ∀ x ∈ l, x ∈ S) :
    ∑ x ∈ S, l.count x = l.length := by
  induction l with
  | nil => simp
  | cons y t ih =>
    have hy : y ∈ S := h y (List.mem_cons_self y t)
    have ht : ∀ x ∈ t, x ∈ S := fun x hx => h x (List.mem_cons_of_mem y hx)
    have hcount : ∀ x, (y :: t).count x = t.count x + if x = y then 1 else 0 := by
      intro x
      rw [List.count_cons]
      by_cases hxy : x = y
      · simp [hxy]
      · simp [hxy, Ne.symm hxy]
    rw [Finset.sum_congr rfl (fun x _ => hcount x), Finset.sum_add_distrib, ih ht,
      Finset.sum_ite_eq' S y (fun _ => (1 : Nat))]
    simp [hy]

/-- The sum of a function mapped over `List.range n` is the `Finset` sum
over `Finset.range n`. -/
lemma list_sum_map_range {M : Type} [AddCommMonoid M] (f : Nat → M) (n : Nat) :
    ((List.range n).map f).sum = ∑ i ∈ Finset.range n, f i := by
  induction n with
  | zero => simp
  | succ n ih => simp [List.range_succ, Finset.sum_range_succ, ih]

lemma mem_of_mem_zip {α β : Type} {p : α × β} :
    ∀ {l₁ : List α} {l₂ : List β}, p ∈ l₁.zip l₂ → p.1 ∈ l₁ ∧ p.2 ∈ l₂ := by
  intro l₁
  induction l₁ with
  | nil => intro l₂ h; simp [List.zip] at h
  | cons x t ih =>
    intro l₂ h
    cases l₂ with
    | nil => simp [List.zip] at h
    | cons y s =>
      rcases List.mem_cons.mp h with h | h
      · subst h; exact ⟨List.mem_cons_self _ _, List.mem_cons_self _ _⟩
      · have := ih h
        exact ⟨List.mem_cons_of_mem _ this.1, List.mem_cons_of_mem _ this.2⟩

lemma mem_of_mem_tail {α : Type} {x : α} {l : List α} (h : x ∈ l.tail) :
    x ∈ l := by
  cases l with
  | nil => simp at h
  | cons y t => exact List.mem_cons_of_mem _ h

/-- Truncated natural subtraction, cast to the integers, is the clamped
integer subtraction. -/
lemma natCast_sub_eq_max (n k : Nat) : ((n - k : Nat) : ℤ) = max ((n : ℤ) - k) 0 := by
  rcases le_total k n with h | h
  · rw [Nat.cast_sub h, max_eq_left (sub_nonneg.mpr (by exact_mod_cast h))]
  · rw [Nat.sub_eq_zero_of_le h, max_eq_right (sub_nonpos.mpr (by exact_mod_cast h))]
    simp

/-- All 256 byte-value multiplicities of the cast input sum to its
length. -/
lemma sum_counts_eq (a : List Nat) :
    ∑ i ∈ Finset.range 256, (cast_uint8 a).count i = a.length := by
  rw [sum_count_of_forall_mem (cast_uint8 a) (Finset.range 256)
    (fun x hx => Finset.mem_range.mpr (cast_uint8_lt a x hx))]
  exact cast_uint8_length a

/-- **C3**: for every sequence, the 256 entries of `byte_count` sum to the
length of the sequence. -/
theorem byte_count_sum_eq_length (a : List Nat) :
    (byte_count a).sum = a.length := by
  rw [byte_count, list_sum_map_range]
  exact sum_counts_eq a

lemma digraph_total_eq (a : List Nat) : digraph_total a = a.length - 1 := by
  have hmem : ∀ p ∈ (cast_uint8 a).zip (cast_uint8 a).tail,
      p ∈ Finset.range 256 ×ˢ Finset.range 256 := by
    intro p hp
    obtain ⟨h1, h2⟩ := mem_of_mem_zip hp
    exact Finset.mem_product.mpr
      ⟨Finset.mem_range.mpr (cast_uint8_lt a _ h1),
       Finset.mem_range.mpr (cast_uint8_lt a _ (mem_of_mem_tail h2))⟩
  have hsum := sum_count_of_forall_mem ((cast_uint8 a).zip (cast_uint8 a).tail)
    (Finset.range 256 ×ˢ Finset.range 256) hmem
  have hprod := Finset.sum_product (Finset.range 256) (Finset.range 256)
    (fun p => ((cast_uint8 a).zip (cast_uint8 a).tail).count p)
  have hlen : ((cast_uint8 a).zip (cast_uint8 a).tail).length = a.length - 1 := by
    rw [List.length_zip, List.length_tail, cast_uint8_length]
    omega
  rw [digraph_total]
  simp only [digraph_count]
  rw [← hprod, hsum, hlen]

lemma trigraph_total_eq (a : List Nat) : trigraph_total a = a.length - 2 := by
  have hmem : ∀ p ∈ (cast_uint8 a).zip
      ((cast_uint8 a).tail.zip (cast_uint8 a).tail.tail),
      p ∈ Finset.range 256 ×ˢ (Finset.range 256 ×ˢ Finset.range 256) := by
    intro p hp
    obtain ⟨h1, h2⟩ := mem_of_mem_zip hp
    obtain ⟨h3, h4⟩ := mem_of_mem_zip h2
    exact Finset.mem_product.mpr
      ⟨Finset.mem_range.mpr (cast_uint8_lt a _ h1),
       Finset.mem_product.mpr
         ⟨Finset.mem_range.mpr (cast_uint8_lt a _ (mem_of_mem_tail h3)),
          Finset.mem_range.mpr
            (cast_uint8_lt a _ (mem_of_mem_tail (mem_of_mem_tail h4)))⟩⟩
  have hsum := sum_count_of_forall_mem
    ((cast_uint8 a).zip ((cast_uint8 a).tail.zip (cast_uint8 a).tail.tail))
    (Finset.range 256 ×ˢ (Finset.range 256 ×ˢ Finset.range 256)) hmem
  have houter := Finset.sum_product (Finset.range 256)
    (Finset.range 256 ×ˢ Finset.range 256)
    (fun p =>
      ((cast_uint8 a).zip ((cast_uint8 a).tail.zip (cast_uint8 a).tail.tail)).count p)
  have hinner : ∀ x : Nat,
      ∑ q ∈ Finset.range 256 ×ˢ Finset.range 256,
        ((cast_uint8 a).zip ((cast_uint8 a).tail.zip (cast_uint8 a).tail.tail)).count
          (x, q)
      = ∑ y ∈ Finset.range 256, ∑ z ∈ Finset.range 256,
        ((cast_uint8 a).zip ((cast_uint8 a).tail.zip (cast_uint8 a).tail.tail)).count
          (x, (y, z)) := fun x =>
    Finset.sum_product (Finset.range 256) (Finset.range 256) (fun q =>
      ((cast_uint8 a).zip ((cast_uint8 a).tail.zip (cast_uint8 a).tail.tail)).count
        (x, q))
  have hlen : ((cast_uint8 a).zip
      ((cast_uint8 a).tail.zip (cast_uint8 a).tail.tail)).length = a.length - 2 := by
    rw [List.length_zip, List.length_zip, List.length_tail, List.length_tail,
      List.length_tail, cast_uint8_length]
    omega
  rw [trigraph_total]
  simp only [trigraph_count]
  calc ∑ x ∈ Finset.range 256, ∑ y ∈ Finset.range 256, ∑ z ∈ Finset.range 256,
        ((cast_uint8 a).zip ((cast_uint8 a).tail.zip (cast_uint8 a).tail.tail)).count
          (x, (y, z))
      = ∑ x ∈ Finset.range 256,
          ∑ q ∈ Finset.range 256 ×ˢ Finset.range 256,
          ((cast_uint8 a).zip ((cast_uint8 a).tail.zip (cast_uint8 a).tail.tail)).count
            (x, q) := by
        exact Finset.sum_congr rfl (fun x _ => (hinner x).symm)
    _ = ∑ p ∈ Finset.range 256 ×ˢ (Finset.range 256 ×ˢ Finset.range 256),
          ((cast_uint8 a).zip ((cast_uint8 a).tail.zip (cast_uint8 a).tail.tail)).count
            p := houter.symm
    _ = a.length - 2 := by rw [hsum, hlen]

/-- **C4**: for every sequence of length N, the entries of the digraph
table (frac=False) sum to max(N−1, 0) and the entries of the trigraph
table (frac=False) sum to max(N−2, 0). -/
theorem ngraph_total_eq_max (a : List Nat) :
    ((digraph_total a : ℤ) = max ((a.length : ℤ) - 1) 0) ∧
    ((trigraph_total a : ℤ) = max ((a.length : ℤ) - 2) 0) := by
  constructor
  · rw [digraph_total_eq]
    have := natCast_sub_eq_max a.length 1
    simpa using this
  · rw [trigraph_total_eq]
    have := natCast_sub_eq_max a.length 2
    simpa using this

/-- **C6 counterexample**: `[0, 1]` and `[5]` have different lengths, yet
neither difference operation fails — numpy broadcasts the length-1
operand, so `diff_bit` returns 3 and `diff_byte` returns 2. -/
theorem diff_unequal_lengths_no_error :
    (([0, 1] : List Nat).length ≠ ([5] : List Nat).length) ∧
    diff_bit [0, 1] [5] = Except.ok 3 ∧
    diff_byte [0, 1] [5] = Except.ok 2 :=
  ⟨by decide, rfl, rfl⟩

/-- **C6 (amended)**: difference operations on sequences of unequal
lengths fail with SizeMismatch, provided neither operand has length 1
(a length-1 operand is broadcast instead of failing). -/
theorem diff_size_mismatch (a b : List Nat) (h : a.length ≠ b.length)
    (ha : a.length ≠ 1) (hb : b.length ≠ 1) :
    diff_bit a b = Except.error Err.sizeMismatch ∧
    diff_byte a b = Except.error Err.sizeMismatch := by
  have hxor : numpy_bitwise_xor (cast_uint8 a) (cast_uint8 b) =
      Except.error Err.sizeMismatch := by
    rw [numpy_bitwise_xor, cast_uint8_length, cast_uint8_length,
      if_neg h, if_neg ha, if_neg hb]
  constructor
  · rw [diff_bit, hxor]; rfl
  · rw [diff_byte, hxor]; rfl

/-- Instance of `diff_size_mismatch` at `a = [0, 1, 2]`, `b = [3, 4]`. -/
theorem diff_size_mismatch_witness :
    diff_bit [0, 1, 2] [3, 4] = Except.error Err.sizeMismatch ∧
    diff_byte [0, 1, 2] [3, 4] = Except.error Err.sizeMismatch :=
  diff_size_mismatch [0, 1, 2] [3, 4] (by decide) (by decide) (by decide)

lemma getD_eq_getElem0 (l : List Nat) (j : Nat) (h : j < l.length) :
    l.getD j 0 = l[j] := by
  simp [List.getD_eq_getElem?_getD, List.getElem?_eq_getElem h]

lemma getD_set_self (l : List Nat) (i v : Nat) (h : i < l.length) :
    (l.set i v).getD i 0 = v := by
  simp [List.getD_eq_getElem?_getD, List.getElem?_set_self h]

lemma getD_set_ne (l : List Nat) (i j v : Nat) (h : i ≠ j) :
    (l.set i v).getD j 0 = l.getD j 0 := by
  simp [List.getD_eq_getElem?_getD, List.getElem?_set_ne h]

lemma getD_lt_of_forall_lt (l : List Nat) (h : ∀ x ∈ l, x < 256) (j : Nat) :
    l.getD j 0 < 256 := by
  by_cases hj : j < l.length
  · rw [getD_eq_getElem0 l j hj]
    exact h _ (List.getElem_mem hj)
  · have : l.getD j 0 = 0 := by
      simp [List.getD_eq_getElem?_getD, List.getElem?_eq_none (by omega : l.length ≤ j)]
    rw [this]; norm_num

lemma xorSlice_length (m : List Nat) : ∀ (buf : List Nat) (start : Nat),
    (xorSlice buf start m).length = buf.length := by
  induction m with
  | nil => intro buf start; rfl
  | cons v vs ih =>
    intro buf start
    rw [show xorSlice buf start (v :: vs) =
        xorSlice (buf.set start (buf.getD start 0 ^^^ v)) (start + 1) vs from rfl,
      ih, List.length_set]

lemma xorSlice_getD (m : List Nat) : ∀ (buf : List Nat) (start : Nat),
    start + m.length ≤ buf.length → ∀ j,
    (xorSlice buf start m).getD j 0 =
      if start ≤ j ∧ j < start + m.length
      then buf.getD j 0 ^^^ m.getD (j - start) 0
      else buf.getD j 0 := by
  induction m with
  | nil =>
    intro buf start _ j
    rw [if_neg (by simp)]
    rfl
  | cons v vs ih =>
    intro buf start hle j
    simp only [List.length_cons] at hle
    have hstart : start < buf.length := by omega
    have hle' : (start + 1) + vs.length ≤
        (buf.set start (buf.getD start 0 ^^^ v)).length := by
      rw [List.length_set]; omega
    rw [show xorSlice buf start (v :: vs) =
        xorSlice (buf.set start (buf.getD start 0 ^^^ v)) (start + 1) vs from rfl,
      ih _ _ hle' j]
    by_cases hj : j = start
    · subst hj
      rw [if_neg (by omega), getD_set_self _ _ _ hstart,
        if_pos ⟨le_refl _, by simp only [List.length_cons]; omega⟩]
      simp
    · rw [getD_set_ne _ _ _ _ (fun h => hj h.symm)]
      by_cases hj2 : start + 1 ≤ j ∧ j < start + 1 + vs.length
      · rw [if_pos hj2,
          if_pos ⟨by omega, by simp only [List.length_cons]; omega⟩]
        have hidx : j - start = (j - (start + 1)) + 1 := by omega
        rw [hidx, List.getD_cons_succ]
      · rw [if_neg hj2, if_neg (by simp only [List.length_cons]; omega)]

lemma applyBlocks_length (mask r : List Nat) :
    ∀ n, (applyBlocks mask r n).length = r.length := by
  intro n
  induction n with
  | zero => rfl
  | succ n ih =>
    rw [show applyBlocks mask r (n + 1) =
        xorSlice (applyBlocks mask r n) (n * mask.length) mask from rfl,
      xorSlice_length, ih]

lemma applyBlocks_getD (mask r : List Nat) :
    ∀ n, n * mask.length ≤ r.length → ∀ j,
    (applyBlocks mask r n).getD j 0 =
      if j < n * mask.length
      then r.getD j 0 ^^^ mask.getD (j % mask.length) 0
      else r.getD j 0 := by
  intro n
  induction n with
  | zero => intro _ j; rw [if_neg (by simp)]; rfl
  | succ n ih =>
    intro hle j
    have hmul : (n + 1) * mask.length = n * mask.length + mask.length := by ring
    have hle' : n * mask.length ≤ r.length := by omega
    have hlen : n * mask.length + mask.length ≤
        (applyBlocks mask r n).length := by
      rw [applyBlocks_length]; omega
    rw [show applyBlocks mask r (n + 1) =
        xorSlice (applyBlocks mask r n) (n * mask.length) mask from rfl,
      xorSlice_getD _ _ _ hlen j, ih hle' j]
    by_cases h1 : n * mask.length ≤ j ∧ j < n * mask.length + mask.length
    · have hmod : j % mask.length = j - n * mask.length := by
        have hk : j - n * mask.length < mask.length := by omega
        have h2 : j = mask.length * n + (j - n * mask.length) := by
          have := Nat.mul_comm n mask.length; omega
        conv_lhs => rw [h2]
        rw [Nat.mul_add_mod, Nat.mod_eq_of_lt hk]
      rw [if_pos h1, if_neg (by omega), if_pos (by omega), hmod]
    · rw [if_neg h1]
      by_cases h2 : j < n * mask.length
      · rw [if_pos h2, if_pos (by omega)]
      · rw [if_neg h2, if_neg (by omega)]

lemma xor_result_length (s m : List Nat) : (xor_result s m).length = s.length := by
  simp only [xor_result]
  split
  · rw [xorSlice_length, applyBlocks_length]
  · rw [applyBlocks_length]

/-- Pointwise value of the result buffer: position `j` holds
`s[j] xor m[j mod |m|]`. -/
lemma xor_result_getD (s m : List Nat) (hM : m.length ≠ 0) (j : Nat)
    (hj : j < s.length) :
    (xor_result s m).getD j 0 = s.getD j 0 ^^^ m.getD (j % m.length) 0 := by
  have hMpos : 0 < m.length := Nat.pos_of_ne_zero hM
  have hBle : (s.length / m.length) * m.length ≤ s.length :=
    Nat.div_mul_le_self s.length m.length
  have hchar := applyBlocks_getD m s (s.length / m.length) hBle
  have hlenAB : (applyBlocks m s (s.length / m.length)).length = s.length :=
    applyBlocks_length m s (s.length / m.length)
  have hdm := Nat.div_add_mod s.length m.length
  have hcomm := Nat.mul_comm m.length (s.length / m.length)
  simp only [xor_result, hlenAB]
  by_cases hR : s.length % m.length ≠ 0
  · rw [if_pos hR]
    have hRlt : s.length % m.length < m.length := Nat.mod_lt _ hMpos
    have htake_len : (m.take (s.length % m.length)).length = s.length % m.length := by
      rw [List.length_take]; omega
    have hstart : s.length - s.length % m.length =
        (s.length / m.length) * m.length := by omega
    rw [xorSlice_getD (m.take (s.length % m.length)) _ _
      (by rw [hlenAB, htake_len]; omega) j]
    by_cases hj2 : s.length - s.length % m.length ≤ j
    · rw [if_pos ⟨hj2, by rw [htake_len]; omega⟩, hchar j,
        if_neg (by omega : ¬ j < (s.length / m.length) * m.length)]
      have hk : j - (s.length - s.length % m.length) < s.length % m.length := by
        omega
      have htake : (m.take (s.length % m.length)).getD
          (j - (s.length - s.length % m.length)) 0 =
          m.getD (j - (s.length - s.length % m.length)) 0 := by
        simp [List.getD_eq_getElem?_getD, List.getElem?_take_of_lt hk]
      have hmod : j % m.length = j - (s.length - s.length % m.length) := by
        have h2 : j = m.length * (s.length / m.length) +
            (j - (s.length - s.length % m.length)) := by omega
        conv_lhs => rw [h2]
        rw [Nat.mul_add_mod, Nat.mod_eq_of_lt (by omega)]
      rw [htake, hmod]
    · rw [if_neg (fun hc => hj2 hc.1), hchar j,
        if_pos (by omega : j < (s.length / m.length) * m.length)]
  · rw [if_neg hR, hchar j, if_pos (by omega)]

/-- Every entry of the result buffer is a byte whenever the inputs are. -/
lemma xor_result_forall_lt (s m : List Nat) (hM : m.length ≠ 0)
    (hs : ∀ x ∈ s, x < 256) (hm2 : ∀ x ∈ m, x < 256) :
    ∀ x ∈ xor_result s m, x < 256 := by
  intro x hx
  obtain ⟨i, hi, heq⟩ := List.mem_iff_getElem.mp hx
  have hi' : i < s.length := by rw [← xor_result_length s m]; exact hi
  rw [← getD_eq_getElem0 _ _ hi, xor_result_getD s m hM i hi'] at heq
  have b1 : s.getD i 0 < 2 ^ 8 :=
    lt_of_lt_of_le (getD_lt_of_forall_lt s hs i) (by norm_num)
  have b2 : m.getD (i % m.length) 0 < 2 ^ 8 :=
    lt_of_lt_of_le (getD_lt_of_forall_lt m hm2 (i % m.length)) (by norm_num)
  have := Nat.xor_lt_two_pow b1 b2
  rw [heq] at this
  exact lt_of_lt_of_le this (by norm_num)

/-- **C7**: a zero-length mask makes `repeating_xor` fail with
InvalidArgument (the uncaught division by zero in
`result.size // mask.size`). -/
theorem repeating_xor_empty_mask (src mask : List Nat) (h : mask.length = 0) :
    repeating_xor src mask = Except.error Err.invalidArgument := by
  have hc : (cast_uint8 mask).length = 0 := by rw [cast_uint8_length, h]
  simp only [repeating_xor, repeating_xor_run]
  rw [if_pos hc]
  rfl

/-- Instance of `repeating_xor_empty_mask` at `src = [1, 2, 3]`. -/
theorem repeating_xor_empty_mask_witness :
    repeating_xor [1, 2, 3] [] = Except.error Err.invalidArgument :=
  repeating_xor_empty_mask [1, 2, 3] [] rfl

/-- **C10**: for a non-empty mask the call succeeds and the source buffer
held by the final state still contains exactly the (cast) input data:
all in-place updates were applied to the freshly copied result buffer
only. -/
theorem repeating_xor_preserves_src (src mask : List Nat)
    (h : 1 ≤ mask.length) :
    (repeating_xor_run src mask).map XorState.src = Except.ok (cast_uint8 src) := by
  have hc : ¬ (cast_uint8 mask).length = 0 := by rw [cast_uint8_length]; omega
  simp only [repeating_xor_run]
  rw [if_neg hc]
  rfl

/-- Instance of `repeating_xor_preserves_src` at `src = [10, 20, 30]`,
`mask = [1, 2]`. -/
theorem repeating_xor_preserves_src_witness :
    (repeating_xor_run [10, 20, 30] [1, 2]).map XorState.src =
      Except.ok (cast_uint8 [10, 20, 30]) :=
  repeating_xor_preserves_src [10, 20, 30] [1, 2] (by decide)

/-- **C1**: applying `repeating_xor` twice with the same non-empty mask
returns the original byte sequence. -/
theorem repeating_xor_roundtrip (src mask : List Nat)
    (hmask : 1 ≤ mask.length) (hsrc : ∀ x ∈ src, x < 256) :
    (repeating_xor src mask).bind (fun r => repeating_xor r mask) =
      Except.ok src := by
  have hm : mask.length ≠ 0 := by omega
  have hmc : ¬ (cast_uint8 mask).length = 0 := by rw [cast_uint8_length]; omega
  have hmc' : (cast_uint8 mask).length ≠ 0 := hmc
  have hs : cast_uint8 src = src := cast_uint8_eq_self hsrc
  have e1 : repeating_xor src mask =
      Except.ok (xor_result (cast_uint8 src) (cast_uint8 mask)) := by
    simp only [repeating_xor, repeating_xor_run]
    rw [if_neg hmc]
    rfl
  have hr1lt : ∀ x ∈ xor_result (cast_uint8 src) (cast_uint8 mask), x < 256 :=
    xor_result_forall_lt (cast_uint8 src) (cast_uint8 mask) hmc'
      (cast_uint8_lt src) (cast_uint8_lt mask)
  have e2 : repeating_xor (xor_result (cast_uint8 src) (cast_uint8 mask)) mask =
      Except.ok (xor_result (xor_result (cast_uint8 src) (cast_uint8 mask))
        (cast_uint8 mask)) := by
    simp only [repeating_xor, repeating_xor_run]
    rw [cast_uint8_eq_self hr1lt, if_neg hmc]
    rfl
  have hlen1 : (xor_result (cast_uint8 src) (cast_uint8 mask)).length =
      src.length := by rw [xor_result_length, cast_uint8_length]
  have hfinal : xor_result (xor_result (cast_uint8 src) (cast_uint8 mask))
      (cast_uint8 mask) = src := by
    apply List.ext_getElem
    · rw [xor_result_length, hlen1]
    · intro i hi1 hi2
      have hiL : i < (xor_result (cast_uint8 src) (cast_uint8 mask)).length := by
        rw [hlen1]; exact hi2
      rw [← getD_eq_getElem0 _ _ hi1, ← getD_eq_getElem0 _ _ hi2,
        xor_result_getD _ (cast_uint8 mask) hmc' i hiL,
        xor_result_getD (cast_uint8 src) (cast_uint8 mask) hmc' i
          (by rw [cast_uint8_length]; exact hi2),
        hs, Nat.xor_assoc, Nat.xor_self, Nat.xor_zero]
  rw [e1]
  show repeating_xor (xor_result (cast_uint8 src) (cast_uint8 mask)) mask =
    Except.ok src
  rw [e2, hfinal]

/-- Instance of `repeating_xor_roundtrip` at `src = [0, 1, 2, 3]`,
`mask = [255]` (the spec's example mask). -/
theorem repeating_xor_roundtrip_witness :
    (repeating_xor [0, 1, 2, 3] [255]).bind (fun r => repeating_xor r [255]) =
      Except.ok [0, 1, 2, 3] :=
  repeating_xor_roundtrip [0, 1, 2, 3] [255] (by decide) (by decide)

lemma foldl_mismatch_getD_zero (a : List Nat) (L : List Nat)
    (hL : ∀ i ∈ L, i ≠ 0) :
    ∀ init : List Nat,
    (L.foldl (fun ac i => ac.set i (ac.getD i 0 - mismatch_count a i))
      init).getD 0 0 = init.getD 0 0 := by
  induction L with
  | nil => intro init; rfl
  | cons i t ih =>
    intro init
    rw [List.foldl_cons, ih (fun j hj => hL j (List.mem_cons_of_mem _ hj)),
      getD_set_ne _ _ _ _ (hL i (List.mem_cons_self _ _))]

/-- **C8**: direct-mode autocorrelation of a non-empty sequence has value
exactly `N` at shift 0. -/
theorem autocorrelation_direct_at_zero (a : List Nat) (h : a ≠ []) :
    (autocorrelation_direct a).getD 0 0 = a.length := by
  have hpos : 0 < a.length := List.length_pos.mpr h
  have hcast : (cast_uint8 a).length = a.length := cast_uint8_length a
  have hL : ∀ i ∈ List.range' 1 ((cast_uint8 a).length - 2), i ≠ 0 := by
    intro i hi
    obtain ⟨k, _, hk⟩ := List.mem_range'.mp hi
    omega
  rw [autocorrelation_direct]
  rw [foldl_mismatch_getD_zero _ _ hL]
  have h0 : 0 < ((List.range (cast_uint8 a).length).map
      (fun s => (cast_uint8 a).length - s)).length := by
    simp [hcast, hpos]
  rw [getD_eq_getElem0 _ 0 h0]
  simp [hcast]

/-- Instance of `autocorrelation_direct_at_zero` at `[3, 7, 7]`. -/
theorem autocorrelation_direct_at_zero_witness :
    (autocorrelation_direct [3, 7, 7]).getD 0 0 = 3 :=
  autocorrelation_direct_at_zero [3, 7, 7] (by decide)

/-- **C9**: on the empty sequence every count is zero, every summand takes
the guarded else-branch, and `entropy` returns exactly 0 — no division
is ever reached. -/
theorem entropy_nil : entropy [] = 0 := by
  simp [entropy, cast_uint8]

/-- The guarded sum of `entropy` is the `negMulLog` sum over all 256
probabilities, rescaled from natural to base-2 logarithms. -/
lemma entropy_eq_sum_negMulLog (a : List Nat) :
    entropy a = (∑ i ∈ Finset.range 256,
      Real.negMulLog (((cast_uint8 a).count i : ℝ) /
        ((cast_uint8 a).length : ℝ))) / Real.log 2 := by
  rw [entropy, Finset.sum_div]
  apply Finset.sum_congr rfl
  intro i _
  by_cases hc : (cast_uint8 a).count i ≠ 0
  · rw [if_pos hc]
    rw [← Real.log_div_log]
    simp only [Real.negMulLog_eq_neg]
    ring
  · push_neg at hc
    rw [if_neg (by simp [hc]), hc]
    simp [Real.negMulLog]

lemma entropy_nonneg (a : List Nat) : 0 ≤ entropy a := by
  rw [entropy]
  apply Finset.sum_nonneg
  intro i _
  by_cases hc : (cast_uint8 a).count i ≠ 0
  · rw [if_pos hc]
    have hcl : (cast_uint8 a).count i ≤ (cast_uint8 a).length :=
      List.count_le_length _ _
    have hp0 : (0 : ℝ) ≤ ((cast_uint8 a).count i : ℝ) /
        ((cast_uint8 a).length : ℝ) := by positivity
    have hp1 : ((cast_uint8 a).count i : ℝ) /
        ((cast_uint8 a).length : ℝ) ≤ 1 :=
      div_le_one_of_le₀ (by exact_mod_cast hcl) (by positivity)
    have hlog := Real.logb_nonpos (by norm_num : (1 : ℝ) < 2) hp0 hp1
    nlinarith [mul_nonneg hp0 (neg_nonneg.mpr hlog)]
  · rw [if_neg hc]

lemma entropy_le_eight (a : List Nat) (h : a ≠ []) : entropy a ≤ 8 := by
  have hN : (cast_uint8 a).length = a.length := cast_uint8_length a
  have hN0 : a.length ≠ 0 := (List.length_pos.mpr h).ne'
  have hp_sum : ∑ i ∈ Finset.range 256,
      ((cast_uint8 a).count i : ℝ) / ((cast_uint8 a).length : ℝ) = 1 := by
    rw [← Finset.sum_div,
      show ∑ i ∈ Finset.range 256, (((cast_uint8 a).count i : ℕ) : ℝ) =
        ((∑ i ∈ Finset.range 256, (cast_uint8 a).count i : ℕ) : ℝ) from by
          push_cast
          rfl,
      sum_counts_eq a, hN]
    exact div_self (by exact_mod_cast hN0)
  have h₀ : ∀ i ∈ Finset.range 256, (0 : ℝ) ≤ (256 : ℝ)⁻¹ := by
    intro i _
    norm_num
  have h₁ : ∑ _i ∈ Finset.range 256, ((256 : ℝ))⁻¹ = 1 := by
    rw [Finset.sum_const, Finset.card_range]
    norm_num
  have hmem : ∀ i ∈ Finset.range 256,
      ((cast_uint8 a).count i : ℝ) / ((cast_uint8 a).length : ℝ) ∈
        Set.Ici (0 : ℝ) := by
    intro i _
    exact Set.mem_Ici.mpr (by positivity)
  have hjsn := Real.concaveOn_negMulLog.le_map_sum h₀ h₁ hmem
  have h2 : ∑ i ∈ Finset.range 256, (256 : ℝ)⁻¹ •
      Real.negMulLog (((cast_uint8 a).count i : ℝ) /
        ((cast_uint8 a).length : ℝ)) =
      (256 : ℝ)⁻¹ * ∑ i ∈ Finset.range 256,
        Real.negMulLog (((cast_uint8 a).count i : ℝ) /
          ((cast_uint8 a).length : ℝ)) := by
    simp only [smul_eq_mul]
    exact (Finset.mul_sum _ _ _).symm
  have h3 : ∑ i ∈ Finset.range 256, (256 : ℝ)⁻¹ •
      (((cast_uint8 a).count i : ℝ) / ((cast_uint8 a).length : ℝ)) =
      (256 : ℝ)⁻¹ := by
    simp only [smul_eq_mul]
    rw [← Finset.mul_sum, hp_sum, mul_one]
  rw [h2, h3] at hjsn
  have h4 : Real.negMulLog (256 : ℝ)⁻¹ = (256 : ℝ)⁻¹ * Real.log 256 := by
    simp only [Real.negMulLog_eq_neg]
    rw [Real.log_inv]
    ring
  have h5 : Real.log 256 = 8 * Real.log 2 := by
    rw [show (256 : ℝ) = 2 ^ (8 : ℕ) from by norm_num, Real.log_pow]
    push_cast
    ring
  have hS : ∑ i ∈ Finset.range 256,
      Real.negMulLog (((cast_uint8 a).count i : ℝ) /
        ((cast_uint8 a).length : ℝ)) ≤ 8 * Real.log 2 := by
    rw [h4, h5] at hjsn
    nlinarith [hjsn]
  rw [entropy_eq_sum_negMulLog]
  have hlog2 : 0 < Real.log 2 := Real.log_pos (by norm_num)
  rw [div_le_iff₀ hlog2]
  exact hS

lemma entropy_replicate (n v : Nat) (hn : 0 < n) :
    entropy (List.replicate n v) = 0 := by
  have hcast : cast_uint8 (List.replicate n v) = List.replicate n (v % 256) := by
    simp [cast_uint8]
  rw [entropy]
  apply Finset.sum_eq_zero
  intro i _
  rw [hcast]
  by_cases hiv : i = v % 256
  · have hne : ((n : Nat) : ℝ) ≠ 0 := Nat.cast_ne_zero.mpr hn.ne'
    simp only [hiv, List.count_replicate_self, List.length_replicate]
    rw [if_pos hn.ne', div_self hne, Real.logb_one]
    ring
  · have hzero : (List.replicate n (v % 256)).count i = 0 := by
      rw [List.count_replicate]
      simp only [beq_iff_eq]
      rw [if_neg (fun hh => hiv hh.symm)]
    rw [hzero]
    simp

/-- **C5**: entropy of a non-empty sequence lies in `[0, 8]`, and the
entropy of a constant sequence of any positive length is exactly 0. -/
theorem entropy_bounds_and_const_zero :
    (∀ a : List Nat, a ≠ [] → 0 ≤ entropy a ∧ entropy a ≤ 8) ∧
    (∀ n v : Nat, 0 < n → entropy (List.replicate n v) = 0) :=
  ⟨fun a ha => ⟨entropy_nonneg a, entropy_le_eight a ha⟩,
   fun n v hn => entropy_replicate n v hn⟩

/-- Instance of `entropy_bounds_and_const_zero` at `[10, 20]` and at the
constant sequence `replicate 5 7`. -/
theorem entropy_bounds_and_const_zero_witness :
    (0 ≤ entropy [10, 20] ∧ entropy [10, 20] ≤ 8) ∧
    entropy (List.replicate 5 7) = 0 :=
  ⟨entropy_bounds_and_const_zero.1 [10, 20] (by decide),
   entropy_bounds_and_const_zero.2 5 7 (by decide)⟩

/-- **C2 failing input**: for the sequence `[0, 1]` the loop
`for i in range(1, a.size-1)` performs no iteration, so the entry at
shift 1 keeps its pre-filled value 1, although the claimed formula
`N - s - mismatches` evaluates to `2 - 1 - 1 = 0` there. -/
theorem autocorrelation_direct_last_shift_kept :
    autocorrelation_direct [0, 1] = [2, 1] ∧
    ([0, 1] : List Nat).length - 1 - mismatch_count (cast_uint8 [0, 1]) 1 = 0 :=
  ⟨rfl, rfl⟩
